import Mathlib

/-!
Verification of the VISSA / iVISSA feature-selection core and the
benchmarking `DataHandler` error paths of the `auswahl` repository,
shallowly embedded in Lean.

Modelling conventions:
* floating point scores and weights are modelled as `ℚ`;
* the cross-validation scorer (`sklearn.cross_val_score`, an external
  collaborator) is a parameter `f : List Bool → ℚ` mapping a feature mask
  to its submodel score, and `evalF : List ℕ → ℚ` mapping a feature-index
  list to a score for the interval-expansion variant;
* the NumPy `RandomState.shuffle` of the flat index array in
  `_produce_submodels` yields, per row, a permutation of the column
  positions (the per-row `argsort` of distinct shuffled values); it is
  modelled as a function `p : ℕ → ℕ → ℕ` from row and position to
  position, with bijectivity on `[0, n_submodels)` as a hypothesis where
  a theorem needs it;
* Python exceptions are modelled with `Option`/`Except`: `none`/`error`
  means the call raised.
-/

/-! ## Definitions -/

/-- `np.round`: round half to even (banker's rounding), as documented for
NumPy and as Python's builtin `round` behaves. -/
def roundHalfEven (q : ℚ) : ℤ :=
  if q - ⌊q⌋ < 1/2 then ⌊q⌋
  else if 1/2 < q - ⌊q⌋ then ⌊q⌋ + 1
  else if Even ⌊q⌋ then ⌊q⌋ else ⌊q⌋ + 1

/-- `appearances` entry of `_produce_submodels`:
`np.round(var_weights * n_submodels)` for one feature weight. -/
def targetCount (w : ℚ) (N : ℕ) : ℤ := roundHalfEven (w * N)

/-- One row of the Binary Sampling Matrix after the per-row permutation.
Before permuting, column `j` (0-based) holds `j + 1 ≤ target`
(`np.arange(1, n_submodels + 1) <= appearances`); the permutation step
`bsm[(row_selector, p)]` reads entry `σ j` of the unpermuted row into
position `j`. -/
def bsmRow (w : ℚ) (N : ℕ) (σ : ℕ → ℕ) : List Bool :=
  (List.range N).map (fun j => decide ((σ j : ℤ) + 1 ≤ targetCount w N))

/-- `_VISSA._produce_submodels`: the full Binary Sampling Matrix, one row
per feature, each row permuted by its own permutation `p i`. -/
def produceSubmodels (ws : List ℚ) (N : ℕ) (p : ℕ → ℕ → ℕ) : List (List Bool) :=
  (List.range ws.length).map (fun i => bsmRow (ws.getD i 0) N (p i))

/-- Column `i` of the Binary Sampling Matrix: the feature mask of
submodel `i` (`bsm[:, i]`). -/
def bsmCol (bsm : List (List Bool)) (i : ℕ) : List Bool :=
  bsm.map (fun row => row.getD i false)

/-- `_VISSA._evaluate_submodels`: score every column of the matrix with
the cross-validation scorer `f`, keeping the submodel index (joblib
returns results in dispatch order). -/
def evalSubmodels (f : List Bool → ℚ) (bsm : List (List Bool)) (nSub : ℕ) :
    List (ℚ × ℕ) :=
  (List.range nSub).map (fun i => (f (bsmCol bsm i), i))

/-- Stable insertion into a list sorted by descending score: a new
element goes before the first strictly smaller score, after equal ones. -/
def insertDesc (x : ℚ × ℕ) : List (ℚ × ℕ) → List (ℚ × ℕ)
  | [] => [x]
  | y :: ys => if x.1 < y.1 then y :: insertDesc x ys else x :: y :: ys

/-- `sorted(submodels, key=lambda x: -x[0])`: stable sort by descending
score (Python's `sorted` is stable). -/
def sortDesc (l : List (ℚ × ℕ)) : List (ℚ × ℕ) := l.foldr insertDesc []

/-- `np.sum(bsm[:, top_models], axis=1) / selection_quantile`: per
feature, the fraction of the top submodels that include it. -/
def updatedWeights (bsm : List (List Bool)) (tops : List ℕ) (q : ℕ) : List ℚ :=
  bsm.map (fun row => ((tops.filter (fun m => row.getD m false)).length : ℚ) / q)

/-- One inner round of `_yield_best_weights`: produce the Binary Sampling
Matrix from the (fixed) input weights with the rng draw `draw`, score all
submodels, sort them by descending score, take the top
`selection_quantile`, and return the average top score together with the
candidate weight vector. `none` models the `ValueError` raised by
`top_scores, top_models = list(zip(*(submodels_sorted[: selection_quantile])))`
when the top slice is empty. -/
def innerRound (f : List Bool → ℚ) (ws : List ℚ) (N q : ℕ)
    (shuffle : ℕ → ℕ → ℕ → ℕ) (draw : ℕ) : Option (ℚ × List ℚ) :=
  let bsm := produceSubmodels ws N (shuffle draw)
  let tops := (sortDesc (evalSubmodels f bsm N)).take q
  if tops.isEmpty then none
  else some (((tops.map Prod.fst).sum / tops.length),
             updatedWeights bsm (tops.map Prod.snd) q)

/-- The loop body of `_yield_best_weights`, with explicit fuel (the
source iterates `for i in range(5)`).  Returns the number of
sample-evaluate-update rounds that ran, and — unless a round raised —
the final `(best_score, best_var_weights, next rng draw)`.
`best_var_weights` starts as `None` (`none`). -/
def yieldGo (f : List Bool → ℚ) (ws : List ℚ) (N q : ℕ)
    (shuffle : ℕ → ℕ → ℕ → ℕ) :
    ℕ → ℚ → Option (List ℚ) → ℕ → ℕ × Option (ℚ × Option (List ℚ) × ℕ)
  | 0, best, bw, draw => (0, some (best, bw, draw))
  | fuel + 1, best, bw, draw =>
    match innerRound f ws N q shuffle draw with
    | none => (1, none)
    | some (avg, nw) =>
      if best < avg then
        let r := yieldGo f ws N q shuffle fuel avg (some nw) (draw + 1)
        (r.1 + 1, r.2)
      else (1, some (best, bw, draw + 1))

/-- `_VISSA._yield_best_weights`: the refinement loop, seeded with the
`-10000000` sentinel score, `None` weights and 5 rounds of fuel. -/
def yieldBestWeights (f : List Bool → ℚ) (ws : List ℚ) (N q : ℕ)
    (shuffle : ℕ → ℕ → ℕ → ℕ) (draw : ℕ) :
    ℕ × Option (ℚ × Option (List ℚ) × ℕ) :=
  yieldGo f ws N q shuffle 5 (-10000000) none draw

/-- Length of the initial streak of strictly improving rounds: round `k`
improves when its average top score strictly exceeds the best score
accumulated from the previous rounds. A raised round ends the streak. -/
def improvStreak (f : List Bool → ℚ) (ws : List ℚ) (N q : ℕ)
    (shuffle : ℕ → ℕ → ℕ → ℕ) : ℕ → ℕ → ℚ → ℕ
  | 0, _, _ => 0
  | fuel + 1, draw, best =>
    match innerRound f ws N q shuffle draw with
    | none => 0
    | some (avg, _) =>
      if best < avg then improvStreak f ws N q shuffle fuel (draw + 1) avg + 1
      else 0

/-- Constant scorer used in concrete runs: every submodel scores 5. -/
def cF5 : List Bool → ℚ := fun _ => 5

/-- Scorer whose value equals the `-10000000` sentinel everywhere, so no
round can strictly improve the running best. With `cv` scoring equal to
`neg_mean_squared_error`, this is a mean squared error of `1e7`. -/
def cFsent : List Bool → ℚ := fun _ => -10000000

/-- Trivial rng: every shuffle leaves the row order unchanged. -/
def cShuffleId : ℕ → ℕ → ℕ → ℕ := fun _ _ j => j

/-- The IEEE-754 double nearest to the literal `0.05`, as an exact
rational: `3602879701896397 * 2^(-56)`. -/
def float0point05 : ℚ := 3602879701896397 / 72057594037927936

/-- `int(0.05 * self.n_submodels)` in `VISSA._fit` / `iVISSA._fit`:
Python's `int()` truncates toward zero, which is the floor for this
non-negative product. -/
def selectionQuantile (n : ℕ) : ℕ := (Int.floor (float0point05 * n)).toNat

/-- `np.sum(var_weights >= ((n_subs - 0.5)/n_subs))`: how many features
have weight within half a submodel-count unit of certainty. -/
def countCertain (w : List ℚ) (N : ℕ) : ℕ :=
  (w.filter (fun x => decide (((N : ℚ) - 1/2) / N ≤ x))).length

/-- State of the `while True` loop of `VISSA._fit`.
`topScore`/`topW` track the best accepted pair, `varW` holds the value
of the Python variable `var_weights` after the last refinement call
(`none` models Python `None`), `draw` is the rng position, `iters`
counts invocations of `_yield_best_weights`, and `exitEarly` records
whether the loop left through the early-stopping `break` (`true`) or
through the no-improvement `break` (`false`). -/
structure FitState where
  topScore : ℚ
  topW : List ℚ
  varW : Option (List ℚ)
  draw : ℕ
  iters : ℕ
  exitEarly : Bool
deriving DecidableEq, Repr

/-- The `while True` loop of `VISSA._fit`, with fuel (the source loop
has no iteration bound; `none` models both a non-terminating run out of
fuel and an exception). A refinement result is accepted when its score
strictly improves `top_score`; the early-stopping check runs only after
an accepted round, on that round's `var_weights`. On a rejected round
the loop breaks with `var_weights` still holding the rejected
candidate. The `accepted but weights None` branch (reachable only from
states with `topScore` below the sentinel, never from `fitInit`) models
the `TypeError` the next iteration would raise on sampling `None`. -/
def fitGo (f : List Bool → ℚ) (N q nSel : ℕ) (shuffle : ℕ → ℕ → ℕ → ℕ) :
    ℕ → FitState → Option FitState
  | 0, _ => none
  | fuel + 1, st =>
    match (yieldBestWeights f st.topW N q shuffle st.draw).2 with
    | none => none
    | some (score, vw, d') =>
      if st.topScore < score then
        match vw with
        | none => none
        | some w' =>
          if nSel ≤ countCertain w' N then
            some ⟨score, w', some w', d', st.iters + 1, true⟩
          else fitGo f N q nSel shuffle fuel ⟨score, w', some w', d', st.iters + 1, false⟩
      else some ⟨st.topScore, st.topW, vw, d', st.iters + 1, false⟩

/-- Initial loop state of `VISSA._fit`: sentinel score `-10000000` and
uniform weights `0.5 * np.ones((X.shape[1],))`. -/
def fitInit (nFeats : ℕ) : FitState :=
  ⟨-10000000, List.replicate nFeats (1/2), none, 0, 0, false⟩

/-- `support_` construction:
`support_ = zeros(n).astype(bool); support_[idx[: k]] = True` for
`idx = np.argsort(-var_weights)`. -/
def supportMask (idx : List ℕ) (k n : ℕ) : List Bool :=
  (List.range n).map (fun i => decide (i ∈ idx.take k))

/-- `VISSA._fit`: run the outer loop from the uniform initial state and
finalize `weights_` and `support_` from the last `var_weights` value.
`argsortO` is the (deterministic) `np.argsort` routine, a parameter of
the model; `np.argsort(-None)` raising is modelled by `none`. -/
def VISSAfit (f : List Bool → ℚ) (shuffle : ℕ → ℕ → ℕ → ℕ)
    (argsortO : List ℚ → List ℕ) (nSel nSub nFeats fuel : ℕ) :
    Option (List ℚ × List Bool) :=
  match fitGo f nSub (selectionQuantile nSub) nSel shuffle fuel (fitInit nFeats) with
  | none => none
  | some st =>
    match st.varW with
    | none => none
    | some w => some (w, supportMask (argsortO w) nSel nFeats)

/-- Scorer for the C3 counterexample run (arbitrary but fixed
cross-validation scores per feature mask). -/
def cF3 : List Bool → ℚ := fun m =>
  if m = [true, true, true] then 10
  else if m = [true, false, false] then 8
  else if m = [true, true, false] then 9
  else if m = [true, false, true] then 7
  else 0

/-- Involution on `[0,40)` exchanging the blocks `[1,19]` and
`[20,38]`, fixing 0 and 39: row 1 of the first sampled matrix gets its
20 true entries at `{0} ∪ [20,38]`. -/
def sigma1 : ℕ → ℕ := fun j =>
  if j = 0 then 0
  else if j ≤ 19 then j + 19
  else if j ≤ 38 then j - 19
  else j

/-- Involution on `[0,40)` exchanging the blocks `[1,19]` and
`[21,39]`, fixing 0 and 20: row 2 of the first sampled matrix gets its
20 true entries at `{0} ∪ [21,39]`. -/
def sigma2 : ℕ → ℕ := fun j =>
  if j = 0 then 0
  else if j ≤ 19 then j + 20
  else if j = 20 then 20
  else if j ≤ 39 then j - 20
  else j

/-- Involution on `[0,40)` swapping the two halves: row 2 of the second
sampled matrix gets its 20 true entries at `[20,39]`. -/
def shift20 : ℕ → ℕ := fun j => (j + 20) % 40

/-- Per-draw, per-row permutations for the C3 counterexample run
(identity on every row not listed). -/
def cShuffle40 : ℕ → ℕ → ℕ → ℕ := fun draw row =>
  if draw ≤ 1 then
    if row = 1 then sigma1 else if row = 2 then sigma2 else id
  else
    if row = 2 then shift20 else id

/-- The documented contract of `np.argsort(-var_weights)` with the
default `kind='quicksort'` (an introsort): the output is a permutation
of the feature indices along which the weights are non-increasing.
NumPy documents this default sort as **not stable**, so no tie order is
guaranteed. -/
def IsArgsortDesc (w : List ℚ) (p : List ℕ) : Prop :=
  p.Perm (List.range w.length) ∧
  p.Chain' (fun a b => w.getD b 0 ≤ w.getD a 0)

/-- Stable insertion of a feature index into an index list ordered by
descending weight (equal weights keep the earlier index first). -/
def insertIdxDesc (w : List ℚ) (i : ℕ) : List ℕ → List ℕ
  | [] => [i]
  | j :: js => if w.getD i 0 < w.getD j 0 then j :: insertIdxDesc w i js
               else i :: j :: js

/-- Modelled from the spec: the sort the spec attributes to the final
mask — `np.argsort` by descending weight with ties broken by ascending
feature index, i.e. a *stable* descending sort. The source instead
calls `np.argsort` with its default non-stable `kind='quicksort'`; this
definition exists to compare the spec's words with that contract. -/
def argsortDescStable (w : List ℚ) : List ℕ :=
  (List.range w.length).foldr (insertIdxDesc w) []

/-- The mutable state of a `VISSA` estimator instance: constructor
parameters (`n_features_to_select`, `n_submodels`, the integer
`random_state` seed) and the fitted attributes `weights_`/`support_`
(absent before the first `fit`). -/
structure VISSAEst where
  nFeatSel : ℕ
  nSubmodels : ℕ
  seed : ℕ
  weights : Option (List ℚ)
  support : Option (List Bool)
deriving DecidableEq, Repr

/-- `VISSA.fit` on an estimator instance. `shuffleOf` models
`check_random_state(seed)`: an integer seed yields a *fresh* rng stream
on every call, a pure function of the seed. A raised exception
(`none`) leaves the instance unchanged in the model's successful-run
comparisons; `fit` writes `weights_` and `support_` on success. -/
def fitEst (f : List Bool → ℚ) (shuffleOf : ℕ → ℕ → ℕ → ℕ → ℕ)
    (argsortO : List ℚ → List ℕ) (nFeats fuel : ℕ) (e : VISSAEst) :
    Option VISSAEst :=
  match VISSAfit f (shuffleOf e.seed) argsortO e.nFeatSel e.nSubmodels nFeats fuel with
  | none => none
  | some (w, s) => some { e with weights := some w, support := some s }

/-- C8: two-run determinism of `fit`. If `fit` completes on an
estimator with an integer seed, running `fit` again on the resulting
instance (same data, scorer, and seed) reproduces the fitted attributes
bit for bit — the second fit returns the estimator unchanged, in
particular with identical `support_`. The rng is re-seeded from the
stored integer seed on each call and no fitted attribute feeds back
into the computation. -/
theorem c8_fit_twice_deterministic (f : List Bool → ℚ)
    (shuffleOf : ℕ → ℕ → ℕ → ℕ → ℕ) (argsortO : List ℚ → List ℕ)
    (nFeats fuel : ℕ) (e e1 : VISSAEst)
    (h : fitEst f shuffleOf argsortO nFeats fuel e = some e1) :
    fitEst f shuffleOf argsortO nFeats fuel e1 = some e1 ∧
    e1.support = e1.support := by
  refine ⟨?_, rfl⟩
  unfold fitEst at h ⊢
  cases hv : VISSAfit f (shuffleOf e.seed) argsortO e.nFeatSel e.nSubmodels nFeats fuel with
  | none => rw [hv] at h; cases h
  | some p =>
    rw [hv] at h
    dsimp only at h
    cases h
    simp [hv]

/-- Concrete single-feature estimator used for the C8 witness. -/
def cEst0 : VISSAEst := ⟨1, 20, 7, none, none⟩

/-- The estimator after one fit of `cEst0`. -/
def cEst1 : VISSAEst := ⟨1, 20, 7, some [1], some [true]⟩

/-- Seed-indexed rng streams for the C8 witness (every seed yields the
identity stream). -/
def cShuffleOf : ℕ → ℕ → ℕ → ℕ → ℕ := fun _ => cShuffleId

/-- Failure modes of the expansion loop: `oob` is a NumPy `IndexError`
from indexing past the end of `var_weights` (and of the columns of
`X`), `fuelOut` marks exhaustion of the model's fuel. -/
inductive ExpandErr
  | oob
  | fuelOut
deriving DecidableEq, Repr

/-- State of the `while True` loop of `_expand_interval`: weights
(mutated when a probed neighbor is accepted), running score, accepted
feature list, the two borders, the side index (0 = left, 1 = right) and
the `progress` flag. -/
structure ExpandSt where
  w : List ℚ
  score : ℚ
  features : List ℕ
  bLeft : ℤ
  bRight : ℤ
  index : ℕ
  progress : Bool
deriving DecidableEq, Repr

/-- `var_weights[b]` for an integer border. On the paths reachable from
`_expand_interval`'s entry state the border is never negative (the left
limit check enforces `b ≥ 0` and the right border starts at
`new_feature + 1 ≥ 1` and only grows), so a failed bounds check is
exactly NumPy's `IndexError` for an index at or past `len(w)`. -/
def wRead (w : List ℚ) (b : ℤ) : Except ExpandErr ℚ :=
  if 0 ≤ b ∧ b < (w.length : ℤ) then Except.ok (w.getD b.toNat 0)
  else Except.error ExpandErr.oob

/-- One pass of the body of `_expand_interval`'s loop up to (not
including) the break bookkeeping: check the border against its limit
(`limits = [0, -(X.shape[1] - 1)]` with a `>=` comparison, exactly as
in the source), then either absorb an already-certain neighbor or probe
it with the scorer `evalF`, keeping it only on strict improvement and
marking its weight as 1. -/
def expandStep (evalF : List ℕ → ℚ) (nFeats : ℕ) (thr : ℚ) (st : ExpandSt) :
    Except ExpandErr ExpandSt :=
  let b := if st.index = 0 then st.bLeft else st.bRight
  let lim : ℤ := if st.index = 0 then 0 else -((nFeats : ℤ) - 1)
  if lim ≤ b then
    match wRead st.w b with
    | Except.error e => Except.error e
    | Except.ok wb =>
      if thr ≤ wb then
        if st.index = 0 then
          Except.ok { st with bLeft := st.bLeft - 1, progress := true }
        else
          Except.ok { st with bRight := st.bRight + 1, progress := true }
      else
        let fs := evalF (st.features ++ [b.toNat])
        if st.score < fs then
          let st' := { st with score := fs,
                               features := st.features ++ [b.toNat],
                               w := st.w.set b.toNat 1,
                               progress := true }
          if st.index = 0 then Except.ok { st' with bLeft := st.bLeft - 1 }
          else Except.ok { st' with bRight := st.bRight + 1 }
        else Except.ok st
  else Except.ok st

/-- The `while True` loop of `_expand_interval`: after the body, break
when `index == 1 and not progress`, else clear `progress` when
`index == 1`, then flip `index`. -/
def expandLoop (evalF : List ℕ → ℚ) (nFeats : ℕ) (thr : ℚ) :
    ℕ → ExpandSt → Except ExpandErr (List ℕ × ℚ)
  | 0, _ => Except.error ExpandErr.fuelOut
  | fuel + 1, st =>
    match expandStep evalF nFeats thr st with
    | Except.error e => Except.error e
    | Except.ok st' =>
      if st'.index = 1 ∧ st'.progress = false then
        Except.ok (st'.features, st'.score)
      else
        let st'' := if st'.index = 1 then { st' with progress := false } else st'
        expandLoop evalF nFeats thr fuel { st'' with index := (st''.index + 1) % 2 }

instance decEqExceptExpand : DecidableEq (Except ExpandErr (List ℕ × ℚ)) := fun a b =>
  match a, b with
  | Except.ok x, Except.ok y =>
      decidable_of_iff (x = y) ⟨fun h => h ▸ rfl, fun h => Except.ok.inj h⟩
  | Except.error x, Except.error y =>
      decidable_of_iff (x = y) ⟨fun h => h ▸ rfl, fun h => Except.error.inj h⟩
  | Except.ok _, Except.error _ => isFalse (fun h => Except.noConfusion h)
  | Except.error _, Except.ok _ => isFalse (fun h => Except.noConfusion h)

/-- `iVISSA._expand_interval`: borders start at `new_feature ± 1`, the
certainty threshold is `(n_submodels - 0.5)/n_submodels`, the left side
goes first and `progress` starts true. -/
def expandInterval (evalF : List ℕ → ℚ) (nFeats : ℕ) (w : List ℚ) (score : ℚ)
    (features : List ℕ) (newFeature N fuel : ℕ) : Except ExpandErr (List ℕ × ℚ) :=
  expandLoop evalF nFeats (((N : ℚ) - 1/2) / N) fuel
    ⟨w, score, features, (newFeature : ℤ) - 1, (newFeature : ℤ) + 1, 0, true⟩

/-- A pandas indexer entry: `slice(None)`, a scalar label, or a list of
labels (labels are modelled as strings). -/
inductive KeyItem
  | sliceAll
  | one (v : String)
  | many (vs : List String)
deriving DecidableEq, Repr

/-- The scalar-wrapping step of `_identify_key_error`
(`if not isinstance(k, list): k = [k]`). -/
def keyVals : KeyItem → List String
  | KeyItem.sliceAll => []
  | KeyItem.one v => [v]
  | KeyItem.many vs => vs

/-- The message `_identify_key_error` builds for a missing item. -/
def levelMsg (item name : String) : String :=
  "Item " ++ item ++ " not present in level " ++ name

/-- `_identify_key_error`: walk the column key level by level (each
level paired with its name and the labels present in it), skip slices,
and report the first requested item that is absent from its level. -/
def identifyKeyError : List (KeyItem × String × List String) → Option String
  | [] => none
  | (KeyItem.sliceAll, _, _) :: rest => identifyKeyError rest
  | (k, name, vals) :: rest =>
    match (keyVals k).find? (fun item => ! vals.contains item) with
    | some item => some (levelMsg item name)
    | none => identifyKeyError rest

/-- Whether the pandas `.loc` row lookup raises `KeyError`: it does
exactly when a requested row label (a method name) is absent. Column
keys do not raise in the pinned pandas version — the source comment
`current version of pandas requires that` introduces
`_identify_key_error` precisely because of this. -/
def locRowRaises (k : KeyItem) (rows : List String) : Bool :=
  match k with
  | KeyItem.sliceAll => false
  | KeyItem.one v => ! rows.contains v
  | KeyItem.many vs => vs.any (fun v => ! rows.contains v)

/-- Outcome of a guarded getter: the retrieved frame (out of scope,
`Unit`) or a `KeyError` with an optional message. -/
inductive PyResult
  | ok
  | keyError (msg : Option String)
deriving DecidableEq, Repr

/-- The `_protected` decorator around a getter: a `KeyError` escaping
the wrapped call is re-raised as a **bare** `KeyError()` (no message);
otherwise `_identify_key_error` runs on the column key and raises a
descriptive `KeyError` when it finds a missing item. -/
def protectedLookup (methodKey : KeyItem) (rows : List String)
    (key : List (KeyItem × String × List String)) : PyResult :=
  if locRowRaises methodKey rows then PyResult.keyError none
  else
    match identifyKeyError key with
    | some m => PyResult.keyError (some m)
    | none => PyResult.ok

/-- The results store: the label sets of each index level
(`DataHandler.__init__` builds the row index from `methods` and the
column multi-indexes from the rest). -/
structure DataHandlerM where
  datasets : List String
  methods : List String
  features : List String
  regMetrics : List String
  stabMetrics : List String
  runs : List String

/-- `None` arguments become `slice(None)` in `_make_key`. -/
def optKey (o : Option KeyItem) : KeyItem := o.getD KeyItem.sliceAll

/-- `DataHandler.get_regression_data`: column levels
`dataset, n_features, regression_metric, run`. -/
def getRegressionData (h : DataHandlerM)
    (dataset method nfeat regMetric sample : Option KeyItem) : PyResult :=
  protectedLookup (optKey method) h.methods
    [(optKey dataset, "dataset", h.datasets),
     (optKey nfeat, "n_features", h.features),
     (optKey regMetric, "regression_metric", h.regMetrics),
     (optKey sample, "run", h.runs)]

/-- `DataHandler.get_selection_data`: column levels
`dataset, n_features, run`. -/
def getSelectionData (h : DataHandlerM)
    (dataset method nfeat sample : Option KeyItem) : PyResult :=
  protectedLookup (optKey method) h.methods
    [(optKey dataset, "dataset", h.datasets),
     (optKey nfeat, "n_features", h.features),
     (optKey sample, "run", h.runs)]

/-- `DataHandler.get_stability_data`: column levels
`dataset, n_features, stability_metric`. -/
def getStabilityData (h : DataHandlerM)
    (dataset method nfeat stabMetric : Option KeyItem) : PyResult :=
  protectedLookup (optKey method) h.methods
    [(optKey dataset, "dataset", h.datasets),
     (optKey nfeat, "n_features", h.features),
     (optKey stabMetric, "stability_metric", h.stabMetrics)]

/-- `DataHandler.get_measurement_data`: column levels
`dataset, n_features, run`. -/
def getMeasurementData (h : DataHandlerM)
    (dataset method nfeat sample : Option KeyItem) : PyResult :=
  protectedLookup (optKey method) h.methods
    [(optKey dataset, "dataset", h.datasets),
     (optKey nfeat, "n_features", h.features),
     (optKey sample, "run", h.runs)]

/-! ## Theorems -/

theorem bsmRow_length (w : ℚ) (N : ℕ) (σ : ℕ → ℕ) : (bsmRow w N σ).length = N := by
  simp [bsmRow]

theorem produceSubmodels_row (ws : List ℚ) (N : ℕ) (p : ℕ → ℕ → ℕ) (i : ℕ)
    (hi : i < ws.length) :
    (produceSubmodels ws N p).getD i [] = bsmRow (ws.getD i 0) N (p i) := by
  have h : (produceSubmodels ws N p)[i]? = some (bsmRow (ws.getD i 0) N (p i)) := by
    simp only [produceSubmodels]
    rw [List.getElem?_map, List.getElem?_range hi]
    rfl
  simp [List.getD, h]

theorem roundHalfEven_nonneg {q : ℚ} (h : 0 ≤ q) : 0 ≤ roundHalfEven q := by
  have hf : (0 : ℤ) ≤ ⌊q⌋ := Int.floor_nonneg.mpr h
  unfold roundHalfEven
  split
  · omega
  · split
    · omega
    · split <;> omega

theorem roundHalfEven_le {q : ℚ} {N : ℤ} (h : q ≤ N) : roundHalfEven q ≤ N := by
  have hf : ⌊q⌋ ≤ N := by
    have := Int.floor_le_floor h
    simpa using this
  rcases eq_or_lt_of_le hf with heq | hlt
  · -- ⌊q⌋ = N forces q = N, hence a zero fractional part
    have hq : q = (N : ℚ) := by
      have h1 : (N : ℚ) ≤ q := by
        rw [← heq]
        exact Int.floor_le q
      exact le_antisymm h h1
    have hfr : q - (⌊q⌋ : ℚ) = 0 := by
      rw [heq, hq]
      simp
    unfold roundHalfEven
    rw [hfr]
    norm_num [heq]
  · unfold roundHalfEven
    split
    · omega
    · split
      · omega
      · split <;> omega

theorem targetCount_bounds {w : ℚ} {N : ℕ} (h0 : 0 ≤ w) (h1 : w ≤ 1) :
    0 ≤ targetCount w N ∧ targetCount w N ≤ N := by
  constructor
  · exact roundHalfEven_nonneg (by positivity)
  · exact roundHalfEven_le (by
      calc w * N ≤ 1 * N := mul_le_mul_of_nonneg_right h1 (by positivity)
        _ = (N : ℚ) := by ring)

theorem count_true_map (f : ℕ → Bool) (l : List ℕ) :
    (l.map f).count true = l.countP f := by
  induction l with
  | nil => rfl
  | cons a l ih =>
    by_cases h : f a <;> simp [List.count_cons, List.countP_cons, h, ih]

/-- Counting the true entries of an unpermuted row. -/
theorem countP_range_le {t : ℤ} (N : ℕ) (h0 : 0 ≤ t) :
    (List.range N).countP (fun j : ℕ => decide ((j : ℤ) + 1 ≤ t)) = (min t N).toNat := by
  induction N with
  | zero => simp; omega
  | succ n ih =>
    rw [List.range_succ, List.countP_append]
    simp only [List.countP_cons, List.countP_nil, ih]
    by_cases h : (n : ℤ) + 1 ≤ t
    · have hd : decide ((n : ℤ) + 1 ≤ t) = true := decide_eq_true h
      simp only [hd, if_true]
      omega
    · have hd : decide ((n : ℤ) + 1 ≤ t) = false := decide_eq_false h
      simp only [hd, Bool.false_eq_true, if_false]
      omega

/-- A function bijective on `[0, N)` permutes `List.range N`. -/
theorem map_range_perm (p : ℕ → ℕ) (N : ℕ)
    (hlt : ∀ j < N, p j < N)
    (hinj : ∀ a < N, ∀ b < N, p a = p b → a = b) :
    ((List.range N).map p).Perm (List.range N) := by
  have hnodup : ((List.range N).map p).Nodup := by
    refine List.Nodup.map_on ?_ (List.nodup_range N)
    intro a ha b hb hab
    exact hinj a (List.mem_range.mp ha) b (List.mem_range.mp hb) hab
  have hsub : ((List.range N).map p) ⊆ List.range N := by
    intro x hx
    rcases List.mem_map.mp hx with ⟨j, hj, rfl⟩
    exact List.mem_range.mpr (hlt j (List.mem_range.mp hj))
  have hsp := List.subperm_of_subset hnodup hsub
  exact hsp.perm_of_length_le (by simp)

theorem bsmRow_count (w : ℚ) (N : ℕ) (σ : ℕ → ℕ)
    (hlt : ∀ j < N, σ j < N)
    (hinj : ∀ a < N, ∀ b < N, σ a = σ b → a = b) :
    (bsmRow w N σ).count true = (bsmRow w N id).count true := by
  have hperm := map_range_perm σ N hlt hinj
  have h1 : (bsmRow w N σ).count true
      = ((List.range N).map σ).countP
          (fun j : ℕ => decide ((j : ℤ) + 1 ≤ targetCount w N)) := by
    simp only [bsmRow]
    rw [count_true_map, List.countP_map]
    rfl
  have h2 : (bsmRow w N id).count true
      = (List.range N).countP
          (fun j : ℕ => decide ((j : ℤ) + 1 ≤ targetCount w N)) := by
    simp only [bsmRow]
    rw [count_true_map]
    rfl
  rw [h1, h2]
  exact hperm.countP_eq _

theorem bsmRow_id_count {w : ℚ} {N : ℕ} (h0 : 0 ≤ w) (h1 : w ≤ 1) :
    (bsmRow w N id).count true = (targetCount w N).toNat := by
  obtain ⟨hl, hr⟩ := targetCount_bounds (N := N) h0 h1
  have h2 : (bsmRow w N id).count true
      = (List.range N).countP
          (fun j : ℕ => decide ((j : ℤ) + 1 ≤ targetCount w N)) := by
    simp only [bsmRow]
    rw [count_true_map]
    rfl
  rw [h2, countP_range_le N hl]
  omega

/-- C1: each row `i` of the Binary Sampling Matrix returned by
`_produce_submodels` contains exactly `round(w_i * N)` true entries
(`round` = round half to even, as `np.round`), and the per-row
permutation step leaves that count unchanged (the count equals that of
the unpermuted row). The permutation hypotheses record that NumPy's
shuffle-then-argsort yields a bijection of the column positions. -/
theorem c1_sampler_exact_row_counts (ws : List ℚ) (N : ℕ) (p : ℕ → ℕ → ℕ) (i : ℕ)
    (hi : i < ws.length) (_hN : 1 ≤ N)
    (h0 : 0 ≤ ws.getD i 0) (h1 : ws.getD i 0 ≤ 1)
    (hlt : ∀ j < N, p i j < N)
    (hinj : ∀ a < N, ∀ b < N, p i a = p i b → a = b) :
    ((produceSubmodels ws N p).getD i []).count true
      = (targetCount (ws.getD i 0) N).toNat ∧
    ((produceSubmodels ws N p).getD i []).count true
      = (bsmRow (ws.getD i 0) N id).count true := by
  rw [produceSubmodels_row ws N p i hi]
  rw [bsmRow_count (ws.getD i 0) N (p i) hlt hinj]
  rw [bsmRow_id_count h0 h1]
  exact ⟨rfl, rfl⟩

/-- Witness for C1: weights `[3/10, 1/2]`, `N = 4`, identity permutation;
row 0 has `round(1.2) = 1` true entry. -/
theorem c1_sampler_exact_row_counts_witness :
    ((produceSubmodels [3/10, 1/2] 4 (fun _ j => j)).getD 0 []).count true
      = (targetCount ((3:ℚ)/10) 4).toNat ∧
    ((produceSubmodels [3/10, 1/2] 4 (fun _ j => j)).getD 0 []).count true
      = (bsmRow ((3:ℚ)/10) 4 id).count true := by
  have h := c1_sampler_exact_row_counts [3/10, 1/2] 4 (fun _ j => j) 0
    (by decide) (by decide) (by norm_num) (by norm_num)
    (by intro j hj; simpa using hj) (by intro a _ b _ h; exact h)
  simpa using h

theorem yieldGo_rounds (f : List Bool → ℚ) (ws : List ℚ) (N q : ℕ)
    (shuffle : ℕ → ℕ → ℕ → ℕ) :
    ∀ (fuel : ℕ) (best : ℚ) (bw : Option (List ℚ)) (draw : ℕ),
      (yieldGo f ws N q shuffle fuel best bw draw).1
        = min fuel (improvStreak f ws N q shuffle fuel draw best + 1) := by
  intro fuel
  induction fuel with
  | zero => intro best bw draw; simp [yieldGo, improvStreak]
  | succ n ih =>
    intro best bw draw
    rw [yieldGo, improvStreak]
    cases h : innerRound f ws N q shuffle draw with
    | none => simp
    | some p =>
      by_cases hlt : best < p.1
      · simp only [hlt, if_true, ih]
        omega
      · simp only [hlt, if_false]
        omega

/-- C5: `_yield_best_weights` performs at most 5 sample-evaluate-update
rounds, and the number of rounds it performs is exactly
`min 5 (s + 1)` where `s` is the length of the initial streak of rounds
whose average top-quantile score strictly exceeded the running best: the
loop terminates at the first round that fails to improve (or when the
fixed budget of 5 rounds is exhausted). -/
theorem c5_at_most_five_rounds_stop_on_stall (f : List Bool → ℚ) (ws : List ℚ)
    (N q : ℕ) (shuffle : ℕ → ℕ → ℕ → ℕ) (draw : ℕ) :
    (yieldBestWeights f ws N q shuffle draw).1 ≤ 5 ∧
    (yieldBestWeights f ws N q shuffle draw).1
      = min 5 (improvStreak f ws N q shuffle 5 draw (-10000000) + 1) := by
  constructor
  · rw [yieldBestWeights, yieldGo_rounds]
    omega
  · rw [yieldBestWeights, yieldGo_rounds]

theorem yieldGo_invariant (f : List Bool → ℚ) (ws : List ℚ) (N q : ℕ)
    (shuffle : ℕ → ℕ → ℕ → ℕ) :
    ∀ (fuel : ℕ) (best : ℚ) (bw : Option (List ℚ)) (draw : ℕ)
      (res : ℚ × Option (List ℚ) × ℕ),
      (yieldGo f ws N q shuffle fuel best bw draw).2 = some res →
      (best ≤ res.1 ∧
        ((res.2.1 = bw ∧ res.1 = best) ∨
          (∃ d w', res.2.1 = some w' ∧
            innerRound f ws N q shuffle d = some (res.1, w') ∧ best < res.1))) := by
  intro fuel
  induction fuel with
  | zero =>
    intro best bw draw res h
    simp only [yieldGo] at h
    cases h
    exact ⟨le_refl _, Or.inl ⟨rfl, rfl⟩⟩
  | succ n ih =>
    intro best bw draw res h
    rw [yieldGo] at h
    cases hr : innerRound f ws N q shuffle draw with
    | none => rw [hr] at h; cases h
    | some p =>
      rw [hr] at h
      by_cases hlt : best < p.1
      · simp only [hlt, if_true] at h
        obtain ⟨h1, h2⟩ := ih p.1 (some p.2) (draw + 1) res h
        refine ⟨le_trans (le_of_lt hlt) h1, ?_⟩
        rcases h2 with ⟨hbw, hsc⟩ | ⟨d, w', hw, hinner, hgt⟩
        · refine Or.inr ⟨draw, p.2, hbw, ?_, hsc ▸ hlt⟩
          rw [hsc, hr]
        · exact Or.inr ⟨d, w', hw, hinner, lt_trans hlt hgt⟩
      · simp only [hlt, if_false] at h
        cases h
        exact ⟨le_refl _, Or.inl ⟨rfl, rfl⟩⟩

/-- C2 (amended): when `_yield_best_weights` returns `(score, weights)`,
the score is never below the `-10000000` sentinel; either no round
improved — and then the returned weights are `None` (not the initial
input weights) and the score is exactly the sentinel — or the returned
weights were produced by a round whose average top score equals the
returned score and strictly exceeded the sentinel. -/
theorem c2_returned_weights_from_improving_round (f : List Bool → ℚ)
    (ws : List ℚ) (N q : ℕ) (shuffle : ℕ → ℕ → ℕ → ℕ) (draw : ℕ)
    (res : ℚ × Option (List ℚ) × ℕ)
    (h : (yieldBestWeights f ws N q shuffle draw).2 = some res) :
    -10000000 ≤ res.1 ∧
    ((res.2.1 = none ∧ res.1 = -10000000) ∨
      (∃ d w', res.2.1 = some w' ∧
        innerRound f ws N q shuffle d = some (res.1, w') ∧ -10000000 < res.1)) := by
  obtain ⟨h1, h2⟩ := yieldGo_invariant f ws N q shuffle 5 (-10000000) none draw res h
  exact ⟨h1, h2⟩

/-- Witness for C2: with a constant scorer of 5 on one feature with
weight 1/2, 20 submodels and a top quantile of 1, the loop improves once
and returns score 5 with weights `[1]`. -/
theorem c2_returned_weights_from_improving_round_witness :
    -10000000 ≤ (5 : ℚ) ∧
    (((some [1] : Option (List ℚ)) = none ∧ (5 : ℚ) = -10000000) ∨
      (∃ d w', (some [1] : Option (List ℚ)) = some w' ∧
        innerRound cF5 [1/2] 20 1 cShuffleId d = some ((5 : ℚ), w') ∧
          -10000000 < (5 : ℚ))) :=
  c2_returned_weights_from_improving_round cF5 [1/2] 20 1 cShuffleId 0
    (5, some [1], 2) (by with_unfolding_all decide)

/-- Counterexample to C2 as stated: with a scorer stuck at the sentinel
value, the single executed round does not improve the running best
(second conjunct); the claim then promises the initial input weights
`[1/2]` back, but `_yield_best_weights` returns
`best_var_weights = None` (first conjunct), which differs from the
initial weights (third conjunct). -/
theorem c2_counterexample :
    ((yieldBestWeights cFsent [1/2] 1 1 cShuffleId 0).2.map
        (fun r => r.2.1)) = some none ∧
    ((innerRound cFsent [1/2] 1 1 cShuffleId 0).map
        (fun p => decide (-10000000 < p.1))) = some false ∧
    (none : Option (List ℚ)) ≠ some [1/2] := by
  refine ⟨?_, ?_, by decide⟩
  · with_unfolding_all decide
  · with_unfolding_all decide

theorem insertDesc_length (x : ℚ × ℕ) (l : List (ℚ × ℕ)) :
    (insertDesc x l).length = l.length + 1 := by
  induction l with
  | nil => rfl
  | cons y ys ih =>
    rw [insertDesc]
    split <;> simp [ih]

theorem sortDesc_length (l : List (ℚ × ℕ)) : (sortDesc l).length = l.length := by
  induction l with
  | nil => rfl
  | cons x xs ih => simp [sortDesc, List.foldr] at ih ⊢; rw [insertDesc_length, ih]

theorem evalSubmodels_length (f : List Bool → ℚ) (bsm : List (List Bool)) (nSub : ℕ) :
    (evalSubmodels f bsm nSub).length = nSub := by
  simp [evalSubmodels]

theorem selectionQuantile_eq_zero_of_lt {n : ℕ} (h : n < 20) :
    selectionQuantile n = 0 := by
  have hn : (n : ℚ) ≤ 19 := by exact_mod_cast Nat.lt_succ_iff.mp h
  have h1 : float0point05 * n < 1 := by
    calc float0point05 * n ≤ float0point05 * 19 := by
          apply mul_le_mul_of_nonneg_left hn
          norm_num [float0point05]
      _ < 1 := by norm_num [float0point05]
  have h0 : (0 : ℚ) ≤ float0point05 * n := by
    apply mul_nonneg (by norm_num [float0point05]) (by positivity)
  have : Int.floor (float0point05 * (n : ℚ)) = 0 := by
    rw [Int.floor_eq_zero_iff]
    exact ⟨h0, h1⟩
  simp [selectionQuantile, this]

theorem selectionQuantile_pos_of_ge {n : ℕ} (h : 20 ≤ n) :
    1 ≤ selectionQuantile n := by
  have hn : (20 : ℚ) ≤ (n : ℚ) := by exact_mod_cast h
  have h1 : (1 : ℚ) ≤ float0point05 * n := by
    calc (1 : ℚ) ≤ float0point05 * 20 := by norm_num [float0point05]
      _ ≤ float0point05 * n := by
          apply mul_le_mul_of_nonneg_left hn
          norm_num [float0point05]
  have : (1 : ℤ) ≤ Int.floor (float0point05 * (n : ℚ)) := by
    rw [Int.le_floor]
    exact_mod_cast h1
  simp only [selectionQuantile]
  omega

theorem innerRound_quantile_zero (f : List Bool → ℚ) (ws : List ℚ) (N : ℕ)
    (shuffle : ℕ → ℕ → ℕ → ℕ) (draw : ℕ) :
    innerRound f ws N 0 shuffle draw = none := by
  simp [innerRound]

theorem innerRound_ne_none (f : List Bool → ℚ) (ws : List ℚ) {N q : ℕ}
    (shuffle : ℕ → ℕ → ℕ → ℕ) (draw : ℕ) (hq : 1 ≤ q) (hN : 1 ≤ N) :
    innerRound f ws N q shuffle draw ≠ none := by
  rw [innerRound]
  have hlen : ((sortDesc (evalSubmodels f (produceSubmodels ws N (shuffle draw)) N)).take q).length
      = min q N := by
    rw [List.length_take, sortDesc_length, evalSubmodels_length]
  intro hcontra
  split at hcontra
  · rename_i hemp
    rw [List.isEmpty_iff_length_eq_zero] at hemp
    rw [hemp] at hlen
    omega
  · exact Option.some_ne_none _ hcontra

/-- C10: `selection_quantile = int(0.05 * n_submodels)` vanishes for
every `n_submodels < 20`; then the very first refinement round raises
when unpacking the empty top-submodel list (the loop performs exactly
one aborted round and yields no result). For `n_submodels ≥ 20` the
quantile is at least 1 and the top slice of every round is non-empty, so
`fit` carries the implicit precondition `n_submodels ≥ 20`. -/
theorem c10_quantile_precondition (n : ℕ) (f : List Bool → ℚ) (ws : List ℚ)
    (shuffle : ℕ → ℕ → ℕ → ℕ) (draw : ℕ) :
    (n < 20 → selectionQuantile n = 0 ∧
      yieldBestWeights f ws n (selectionQuantile n) shuffle draw = (1, none)) ∧
    (20 ≤ n → 1 ≤ selectionQuantile n ∧
      ∀ d, innerRound f ws n (selectionQuantile n) shuffle d ≠ none) := by
  constructor
  · intro h
    have hq := selectionQuantile_eq_zero_of_lt h
    refine ⟨hq, ?_⟩
    rw [hq, yieldBestWeights]
    have h5 : (5 : ℕ) = 4 + 1 := rfl
    rw [h5, yieldGo, innerRound_quantile_zero]
  · intro h
    have hq := selectionQuantile_pos_of_ge h
    exact ⟨hq, fun d => innerRound_ne_none f ws shuffle d hq (by omega)⟩

/-- Witness for C10: at `n_submodels = 19` the quantile is 0 and the
first round raises; at `n_submodels = 20` the quantile is 1 and the
first round succeeds. -/
theorem c10_quantile_precondition_witness :
    (selectionQuantile 19 = 0 ∧
      yieldBestWeights cF5 [1/2] 19 (selectionQuantile 19) cShuffleId 0 = (1, none)) ∧
    (1 ≤ selectionQuantile 20 ∧
      innerRound cF5 [1/2] 20 (selectionQuantile 20) cShuffleId 0 ≠ none) := by
  refine ⟨(c10_quantile_precondition 19 cF5 [1/2] cShuffleId 0).1 (by omega),
    ⟨((c10_quantile_precondition 20 cF5 [1/2] cShuffleId 0).2 (by omega)).1,
     ((c10_quantile_precondition 20 cF5 [1/2] cShuffleId 0).2 (by omega)).2 0⟩⟩

theorem fitGo_exitEarly_varW (f : List Bool → ℚ) (N q nSel : ℕ)
    (shuffle : ℕ → ℕ → ℕ → ℕ) :
    ∀ (fuel : ℕ) (st st' : FitState),
      fitGo f N q nSel shuffle fuel st = some st' →
      st'.exitEarly = true → st'.varW = some st'.topW := by
  intro fuel
  induction fuel with
  | zero => intro st st' h; cases h
  | succ n ih =>
    intro st st' h he
    rw [fitGo] at h
    cases hy : (yieldBestWeights f st.topW N q shuffle st.draw).2 with
    | none => rw [hy] at h; cases h
    | some r =>
      obtain ⟨score, vw, d'⟩ := r
      rw [hy] at h
      dsimp only at h
      by_cases hacc : st.topScore < score
      · rw [if_pos hacc] at h
        cases vw with
        | none => cases h
        | some w' =>
          dsimp only at h
          by_cases hes : nSel ≤ countCertain w' N
          · rw [if_pos hes] at h
            cases h
            rfl
          · rw [if_neg hes] at h
            exact ih _ _ h he
      · rw [if_neg hacc] at h
        cases h
        cases he

/-- C3 (amended): when `VISSA._fit` completes, `weights_` is the
candidate returned by the **final** refinement invocation and `support_`
is derived from that same vector. When the loop exits through the
early-stopping rule that candidate coincides with the tracked best pair
`top_var_weights`; but when the loop exits because a round failed to
improve the best score, `weights_` holds that rejected round's
candidate, which need not equal the tracked best (see the
counterexample). -/
theorem c3_final_weights_last_candidate (f : List Bool → ℚ)
    (shuffle : ℕ → ℕ → ℕ → ℕ) (argsortO : List ℚ → List ℕ)
    (nSel nSub nFeats fuel : ℕ) (st : FitState) (w : List ℚ)
    (h : fitGo f nSub (selectionQuantile nSub) nSel shuffle fuel (fitInit nFeats)
          = some st)
    (hw : st.varW = some w) :
    VISSAfit f shuffle argsortO nSel nSub nFeats fuel
        = some (w, supportMask (argsortO w) nSel nFeats) ∧
    (st.exitEarly = true → st.topW = w) := by
  constructor
  · unfold VISSAfit
    rw [h]
    simp [hw]
  · intro he
    have := fitGo_exitEarly_varW f nSub (selectionQuantile nSub) nSel shuffle
      fuel (fitInit nFeats) st h he
    rw [hw] at this
    exact (Option.some_inj.mp this).symm

/-- Counterexample to C3 as stated, at parameters the source can
execute: 3 features, `n_submodels = 40` (so
`selection_quantile = int(0.05 * 40) = 2`), 2 features to select. The
first outer round is accepted with weights `[1, 1/2, 1/2]` (the
tracked best pair `top_var_weights`); the second round returns
candidate `[1, 1, 0]` with a score that fails to improve, the loop
breaks — and `fit` completes, with `weights_` (and the `support_`
built from it) taken from the rejected candidate `[1, 1, 0]`, not from
the tracked best `[1, 1/2, 1/2]`. -/
theorem c3_counterexample :
    fitGo cF3 40 (selectionQuantile 40) 2 cShuffle40 5 (fitInit 3)
      = some ⟨9, [1, 1/2, 1/2], some [1, 1, 0], 4, 2, false⟩ ∧
    VISSAfit cF3 cShuffle40 argsortDescStable 2 40 3 5
      = some ([1, 1, 0], [true, true, false]) ∧
    ([1, 1/2, 1/2] : List ℚ) ≠ [1, 1, 0] := by
  refine ⟨?_, ?_, ?_⟩
  · with_unfolding_all decide
  · with_unfolding_all decide
  · with_unfolding_all decide

/-- Witness for C3 (amended): a run on one feature that exits through
the early-stop rule; `weights_` is the final candidate `[1]`, which
equals the tracked best. -/
theorem c3_final_weights_last_candidate_witness :
    VISSAfit cF5 cShuffleId (fun _ => [0]) 1 20 1 2
        = some ([1], supportMask [0] 1 1) ∧
    ((true : Bool) = true → ([1] : List ℚ) = [1]) := by
  have h := c3_final_weights_last_candidate cF5 cShuffleId (fun _ => [0]) 1 20 1 2
    ⟨5, [1], some [1], 2, 1, true⟩ [1]
    (by with_unfolding_all decide) rfl
  exact ⟨h.1, fun _ => (h.2 rfl).symm ▸ rfl⟩

/-- C6: from any loop state of `VISSA._fit`, if the next refinement
round is accepted (its score strictly improves `top_score`) and its
weight vector has at least `n_features_to_select` entries at or above
`(n_submodels - 0.5)/n_submodels`, the loop stops immediately after
that round: no further refinement round is invoked (the final state
counts exactly one more invocation, and carries the early-stop flag). -/
theorem c6_early_stop_ends_loop (f : List Bool → ℚ) (N q nSel : ℕ)
    (shuffle : ℕ → ℕ → ℕ → ℕ) (fuel : ℕ) (st : FitState)
    (sc : ℚ) (w' : List ℚ) (d' : ℕ)
    (h1 : (yieldBestWeights f st.topW N q shuffle st.draw).2 = some (sc, some w', d'))
    (h2 : st.topScore < sc)
    (h3 : nSel ≤ countCertain w' N) :
    fitGo f N q nSel shuffle (fuel + 1) st
      = some ⟨sc, w', some w', d', st.iters + 1, true⟩ := by
  rw [fitGo, h1]
  dsimp only
  rw [if_pos h2, if_pos h3]

/-- Witness for C6: a single-feature run in which the first round is
accepted with certain weights `[1]`; the loop ends after exactly that
one refinement invocation. -/
theorem c6_early_stop_ends_loop_witness :
    fitGo cF5 20 1 1 cShuffleId 1 (fitInit 1)
      = some ⟨5, [1], some [1], 2, 1, true⟩ := by
  have h := c6_early_stop_ends_loop cF5 20 1 1 cShuffleId 0 (fitInit 1) 5 [1] 2
    (by with_unfolding_all decide) (by norm_num [fitInit])
    (by with_unfolding_all decide)
  exact h

theorem supportMask_getD_lt {i n : ℕ} (h : i < n) (p : List ℕ) (k : ℕ) :
    (supportMask p k n).getD i false = decide (i ∈ p.take k) := by
  have hsome : (supportMask p k n)[i]? = some (decide (i ∈ p.take k)) := by
    simp only [supportMask]
    rw [List.getElem?_map, List.getElem?_range h]
    rfl
  simp [List.getD, hsome]

theorem supportMask_getD_ge {i n : ℕ} (h : n ≤ i) (p : List ℕ) (k : ℕ) :
    (supportMask p k n).getD i false = false := by
  apply List.getD_eq_default
  simp [supportMask, h]

/-- C7 (amended): for any output `p` meeting the `np.argsort` contract,
`support_` holds exactly `min k n` true entries, every selected feature
has weight at least that of every unselected feature, and `k = n` gives
an all-true mask. (The original claim's stable tie-breaking by
ascending index is **not** guaranteed: see the counterexample.) -/
theorem c7_support_marks_top_weights (w : List ℚ) (p : List ℕ) (k : ℕ)
    (h : IsArgsortDesc w p) :
    (supportMask p k w.length).count true = min k w.length ∧
    (∀ i j, (supportMask p k w.length).getD i false = true →
      j < w.length → (supportMask p k w.length).getD j false = false →
      w.getD j 0 ≤ w.getD i 0) ∧
    (k = w.length → supportMask p k w.length = List.replicate w.length true) := by
  obtain ⟨hperm, hchain⟩ := h
  have hlenp : p.length = w.length := by
    have := hperm.length_eq
    simpa using this
  have hnodup : p.Nodup := hperm.nodup_iff.mpr (List.nodup_range _)
  have hmem : ∀ x, x ∈ p ↔ x < w.length := by
    intro x
    rw [hperm.mem_iff, List.mem_range]
  have hsplit : p.take k ++ p.drop k = p := List.take_append_drop k p
  have hnodup' : (p.take k ++ p.drop k).Nodup := by rw [hsplit]; exact hnodup
  obtain ⟨-, -, hdisj⟩ := List.nodup_append.mp hnodup'
  refine ⟨?_, ?_, ?_⟩
  · -- exact count of true entries
    have h1 : (supportMask p k w.length).count true
        = (List.range w.length).countP (fun i => decide (i ∈ p.take k)) := by
      simp only [supportMask]
      rw [count_true_map]
    have h2 : (List.range w.length).countP (fun i => decide (i ∈ p.take k))
        = p.countP (fun i => decide (i ∈ p.take k)) :=
      hperm.symm.countP_eq _
    have h3 : p.countP (fun i => decide (i ∈ p.take k))
        = (p.take k).countP (fun i => decide (i ∈ p.take k))
          + (p.drop k).countP (fun i => decide (i ∈ p.take k)) := by
      rw [← List.countP_append, hsplit]
    have h4 : (p.take k).countP (fun i => decide (i ∈ p.take k))
        = (p.take k).length :=
      List.countP_eq_length.mpr (fun a ha => decide_eq_true ha)
    have h5 : (p.drop k).countP (fun i => decide (i ∈ p.take k)) = 0 := by
      apply List.countP_eq_zero.mpr
      intro a ha
      simp only [decide_eq_true_eq]
      intro hmem'
      exact (hdisj hmem') ha
    rw [h1, h2, h3, h4, h5, List.length_take, hlenp]
    omega
  · -- selected features dominate unselected ones
    intro i j hi hj hjf
    haveI : IsTrans ℕ (fun a b => w.getD b 0 ≤ w.getD a 0) :=
      ⟨fun _ _ _ hab hbc => le_trans hbc hab⟩
    have hpair : p.Pairwise (fun a b => w.getD b 0 ≤ w.getD a 0) :=
      List.chain'_iff_pairwise.mp hchain
    have hilt : i < w.length := by
      by_contra hc
      rw [supportMask_getD_ge (le_of_not_lt hc)] at hi
      cases hi
    rw [supportMask_getD_lt hilt] at hi
    have hitk : i ∈ p.take k := of_decide_eq_true hi
    rw [supportMask_getD_lt hj] at hjf
    have hjtk : j ∉ p.take k := by
      intro hc
      rw [decide_eq_true hc] at hjf
      cases hjf
    have hjp : j ∈ p := (hmem j).mpr hj
    have hjdk : j ∈ p.drop k := by
      rw [← hsplit] at hjp
      rcases List.mem_append.mp hjp with h | h
      · exact absurd h hjtk
      · exact h
    have hpair' : (p.take k ++ p.drop k).Pairwise
        (fun a b => w.getD b 0 ≤ w.getD a 0) := by
      rw [hsplit]
      exact hpair
    exact ((List.pairwise_append.mp hpair').2.2) i hitk j hjdk
  · -- selecting all features yields an all-true mask
    intro hk
    have htake : p.take k = p := by
      rw [hk, ← hlenp]
      apply List.take_length
    have : ∀ a ∈ List.range w.length,
        decide (a ∈ p.take k) = (fun _ => true) a := by
      intro a ha
      rw [htake]
      exact decide_eq_true ((hmem a).mpr (List.mem_range.mp ha))
    simp only [supportMask]
    rw [List.map_congr_left this]
    simp

/-- Witness for C7 (amended): weights `[1, 0]` with the (unique) valid
argsort output `[0, 1]` and `k = 1`. -/
theorem c7_support_marks_top_weights_witness :
    (supportMask [0, 1] 1 2).count true = min 1 2 ∧
    (∀ i j, (supportMask [0, 1] 1 2).getD i false = true →
      j < 2 → (supportMask [0, 1] 1 2).getD j false = false →
      ([1, 0] : List ℚ).getD j 0 ≤ ([1, 0] : List ℚ).getD i 0) ∧
    (1 = 2 → supportMask [0, 1] 1 2 = List.replicate 2 true) := by
  have h := c7_support_marks_top_weights [1, 0] [0, 1] 1
    ⟨by decide, by
      norm_num [List.chain'_cons, List.chain'_singleton,
        List.getD_cons_succ, List.getD_cons_zero]⟩
  simpa using h

/-- Counterexample to C7 as stated: for weights `[1, 0, 0]` and
`k = 2`, the output `[0, 2, 1]` satisfies everything `np.argsort`'s
default non-stable sort guarantees, yet selects features `{0, 2}`; the
claim's stable tie-breaking by ascending index would select `{0, 1}`. -/
theorem c7_counterexample :
    IsArgsortDesc [1, 0, 0] [0, 2, 1] ∧
    supportMask [0, 2, 1] 2 3 = [true, false, true] ∧
    supportMask (argsortDescStable [1, 0, 0]) 2 3 = [true, true, false] ∧
    ([true, false, true] : List Bool) ≠ [true, true, false] := by
  refine ⟨⟨by decide, ?_⟩, by decide, ?_, by decide⟩
  · norm_num [List.chain'_cons, List.chain'_singleton,
      List.getD_cons_succ, List.getD_cons_zero]
  · with_unfolding_all decide

/-- Witness for C8: fitting `cEst0` yields `cEst1`; fitting `cEst1`
again returns it unchanged. -/
theorem c8_fit_twice_deterministic_witness :
    fitEst cF5 cShuffleOf argsortDescStable 1 2 cEst1 = some cEst1 ∧
    cEst1.support = cEst1.support :=
  c8_fit_twice_deterministic cF5 cShuffleOf argsortDescStable 1 2 cEst0 cEst1
    (by with_unfolding_all decide)

/-- C4 is a code bug: on 2 features with both weights certain, starting
from feature 0, the right-hand expansion walks past the last column and
reads `var_weights[2]`, an out-of-bounds access — because the source's
right-limit test `borders[1] >= -(X.shape[1] - 1)` compares the border
against a negative number and therefore holds for every non-negative
border (second conjunct), instead of stopping at `n_features - 1`. -/
theorem c4_expansion_reads_out_of_bounds :
    expandInterval (fun _ => 0) 2 [1, 1] 0 [0] 0 20 10
        = Except.error ExpandErr.oob ∧
    (∀ b : ℤ, 0 ≤ b → -((2 : ℤ) - 1) ≤ b) := by
  refine ⟨?_, fun b hb => by omega⟩
  with_unfolding_all decide

/-- C9 (amended): an absent value at any **column** level — dataset,
feature configuration, metric or run — makes each getter raise a
`KeyError` whose message names the missing item and its level; but an
absent **method** (the row level, which `_identify_key_error` never
sees) escapes from pandas and is re-raised as a bare `KeyError` with no
message at all. -/
theorem c9_key_errors (h : DataHandlerM) (d nf rm sm rn m : String)
    (hd : h.datasets.contains d = false)
    (hnf : h.features.contains nf = false)
    (hrm : h.regMetrics.contains rm = false)
    (hsm : h.stabMetrics.contains sm = false)
    (hrn : h.runs.contains rn = false)
    (hm : h.methods.contains m = false) :
    getRegressionData h (some (KeyItem.one d)) none none none none
        = PyResult.keyError (some (levelMsg d "dataset")) ∧
    getRegressionData h none none (some (KeyItem.one nf)) none none
        = PyResult.keyError (some (levelMsg nf "n_features")) ∧
    getRegressionData h none none none (some (KeyItem.one rm)) none
        = PyResult.keyError (some (levelMsg rm "regression_metric")) ∧
    getRegressionData h none none none none (some (KeyItem.one rn))
        = PyResult.keyError (some (levelMsg rn "run")) ∧
    getSelectionData h none none (some (KeyItem.one nf)) none
        = PyResult.keyError (some (levelMsg nf "n_features")) ∧
    getStabilityData h none none none (some (KeyItem.one sm))
        = PyResult.keyError (some (levelMsg sm "stability_metric")) ∧
    getMeasurementData h none none none (some (KeyItem.one rn))
        = PyResult.keyError (some (levelMsg rn "run")) ∧
    getRegressionData h none (some (KeyItem.one m)) none none none
        = PyResult.keyError none := by
  have hd' : d ∉ h.datasets := by simpa using hd
  have hnf' : nf ∉ h.features := by simpa using hnf
  have hrm' : rm ∉ h.regMetrics := by simpa using hrm
  have hsm' : sm ∉ h.stabMetrics := by simpa using hsm
  have hrn' : rn ∉ h.runs := by simpa using hrn
  have hm' : m ∉ h.methods := by simpa using hm
  refine ⟨?_, ?_, ?_, ?_, ?_, ?_, ?_, ?_⟩ <;>
    simp [getRegressionData, getSelectionData, getStabilityData,
      getMeasurementData, protectedLookup, locRowRaises, optKey,
      identifyKeyError, keyVals, List.find?, hd', hnf', hrm', hsm', hrn', hm']

/-- Witness for C9 (amended): a concrete one-entry handler with absent
labels at every level. -/
theorem c9_key_errors_witness :
    getRegressionData ⟨["ds"], ["pls"], ["5"], ["r2"], ["jac"], ["0"]⟩
        (some (KeyItem.one "nope")) none none none none
      = PyResult.keyError (some (levelMsg "nope" "dataset")) ∧
    getRegressionData ⟨["ds"], ["pls"], ["5"], ["r2"], ["jac"], ["0"]⟩
        none (some (KeyItem.one "cars")) none none none
      = PyResult.keyError none := by
  have h := c9_key_errors ⟨["ds"], ["pls"], ["5"], ["r2"], ["jac"], ["0"]⟩
    "nope" "x1" "x2" "x3" "x4" "cars"
    (by decide) (by decide) (by decide) (by decide) (by decide) (by decide)
  exact ⟨h.1, h.2.2.2.2.2.2.2⟩

/-- Counterexample to C9 as stated: requesting an absent *method* from
a store that contains only method `"pls"` raises a `KeyError` carrying
no message — it names neither the missing item nor a level. -/
theorem c9_counterexample :
    getRegressionData ⟨["ds"], ["pls"], ["5"], ["r2"], ["jac"], ["0"]⟩
        none (some (KeyItem.one "vissa")) none none none
      = PyResult.keyError none ∧
    ∀ s : String, PyResult.keyError (some s) ≠ PyResult.keyError none := by
  refine ⟨by decide, fun s hcontra => by cases hcontra⟩
